import Mathlib

/-!
Verification of the `frost-dalek-cli` wrapper (src/lib.rs) against its design
specification.

The wrapper orchestrates a FROST threshold-signature workflow: distributed key
generation (`generate_keys`), threshold signing (`sign_message`) and signature
verification (`validate_signature`).  The wrapper delegates the protocol math
to the external `frost_dalek` library; per the specification that library's
curve/scalar arithmetic, hash-to-scalar and (de)serialization are external
primitives.  We embed the wrapper shallowly:

* scalars are rationals (`ℚ`), the group is the additive group of `ℚ` with
  base point `1`, so a commitment `a·G` is the scalar `a` itself — the
  protocol's algebra (polynomial evaluation, Feldman checks, Lagrange
  aggregation, the Schnorr verification equation) is preserved exactly;
* hash-to-scalar primitives are modelled as injective encodings into `ℚ`;
* fixed-width 32-byte serialization of a scalar is modelled as an encoding
  of the scalar into the first byte cell followed by 31 zero cells, so that
  a serialized signature has the source's length 64;
* file I/O is external: key material and decoded signature byte vectors are
  passed as values; randomness sources are explicit function parameters;
* Rust panics (unwrap/index-out-of-bounds/assert) are modelled as
  distinguished error values, never as ordinary protocol errors.
-/

deriving instance DecidableEq for Except

set_option maxRecDepth 100000

namespace FrostCli

/-- Scalars of the (external) prime-field arithmetic, modelled as `ℚ`. -/
abbrev Scalar := ℚ

/-! ## Serialization primitives (external collaborators, modelled) -/

/-- Injective encoding of an integer into a natural number. -/
def intEncode (z : ℤ) : ℕ :=
  if 0 ≤ z then 2 * z.toNat else 2 * (-z).toNat - 1

/-- Left inverse of `intEncode`. -/
def intDecode (a : ℕ) : ℤ :=
  if a % 2 = 0 then (a / 2 : ℕ) else -(((a + 1) / 2 : ℕ) : ℤ)

/-- Injective encoding of a scalar (a rational) into a natural number,
modelling the external 32-byte little-endian scalar encoding. -/
def ratEncode (x : ℚ) : ℕ := Nat.pair (intEncode x.num) x.den

/-- Left inverse of `ratEncode`. -/
def ratDecode (a : ℕ) : ℚ := (intDecode (Nat.unpair a).1 : ℚ) / ((Nat.unpair a).2 : ℚ)

/-- A scalar serialized to its 32-byte representation: the encoding in the
first cell, then 31 zero cells. -/
def scalarToBytes (x : Scalar) : List ℕ := ratEncode x :: List.replicate 31 0

/-- Deserialization of a 32-byte scalar representation; fails on any list
that is not a well-formed serialization. -/
def scalarFromBytes : List ℕ → Option Scalar
  | [] => none
  | a :: rest => if rest = List.replicate 31 0 then some (ratDecode a) else none

/-! ## Hash-to-scalar primitives (external collaborators, modelled) -/

/-- Injective encoding of a list of naturals into a natural number. -/
def listEncode : List ℕ → ℕ :=
  List.foldr (fun a b => Nat.pair a b + 1) 0

/-- Base of the positional character-list encoding; every `Char.toNat` is
strictly below `charBase - 1`. -/
def charBase : ℕ := 1114113

/-- Positional (base-`charBase`) encoding of a list of character codes. -/
def natListEncode (l : List ℕ) : ℕ :=
  l.foldr (fun c acc => acc * charBase + (c + 1)) 0

/-- Injective encoding of a string into a natural number. -/
def strEncode (s : String) : ℕ := natListEncode (s.data.map Char.toNat)

/-- The message digest: the external domain-separated `compute_message_hash`,
modelled as an injective encoding of (context, message) into a scalar. -/
def computeMessageHash (ctx message : String) : Scalar :=
  (Nat.pair (strEncode ctx) (strEncode message) : ℚ)

/-- The Schnorr challenge hash `H(R, groupKey, digest)`, modelled so that it
is injective in the digest for a fixed `(R, groupKey)` pair. -/
def challengeHash (bigR groupKey digest : Scalar) : Scalar :=
  (Nat.pair (ratEncode bigR) (ratEncode groupKey) : ℚ) + digest

/-- The per-signer binding-factor hash `H(index, digest, commitment list)`. -/
def bindingFactor (index : ℕ) (digest : Scalar) (comList : ℕ) : Scalar :=
  (index : ℚ) + digest + (comList : ℚ)

/-- Encoding of the published commitment-share list fed to the binding-factor
hash. -/
def comListEncode (l : List (ℕ × Scalar × Scalar)) : ℕ :=
  listEncode (l.map (fun p => Nat.pair p.1 (Nat.pair (ratEncode p.2.1) (ratEncode p.2.2))))

/-- Challenge hash of the zero-knowledge proof of the secret constant term. -/
def pokChallenge (index : ℕ) (commitment0 pokR : Scalar) : Scalar :=
  (index : ℚ) + (ratEncode commitment0 : ℚ) + (ratEncode pokR : ℚ)

/-! ## Polynomials over the scalar field -/

/-- Horner evaluation of a coefficient list (constant term first), as the
external library evaluates a secret polynomial at a participant index. -/
def evalPoly (cs : List Scalar) (x : Scalar) : Scalar :=
  cs.foldr (fun a acc => a + x * acc) 0

/-! ## Key generation (`generate_keys`, src/lib.rs lines 30-171) -/

/-- Error outcomes of `generate_keys`.  The source reports errors as strings;
we use the spec's named kinds.  `groupKeyAssertPanic` models the `assert_eq!`
crash on divergent group keys; `panic` models any other Rust panic
(out-of-bounds indexing / `unwrap` on `None`). -/
inductive KeyGenError
  | thresholdExceedsParticipants
  | pokInvalid (index : ℕ)
  | shareCountMismatch (expected got : ℕ)
  | shareVerificationFailed (index : ℕ)
  | groupKeyAssertPanic
  | panic

deriving DecidableEq, Repr

/-- The key record written to / read from the key file (struct `FrostKeys`).
Scalar serialization being external, the 32-byte cells hold scalars
directly. -/
structure FrostKeys where
  group_key : Scalar
  private_shares : List (Scalar × ℕ)
  threshold : ℕ

deriving DecidableEq, Repr

/-- The random degree-`(t-1)` polynomial of the 0-based participant `j`:
`t` coefficients drawn from the explicit randomness source. -/
def polyCoeffs (t : ℕ) (crng : ℕ → ℕ → Scalar) (j : ℕ) : List Scalar :=
  (List.range t).map (crng j)

/-- A DKG participant as published after round 1: 1-based index, public
commitments to the polynomial coefficients, and the proof of knowledge of
the secret constant term. -/
structure Participant where
  index : ℕ
  commitments : List Scalar
  pokR : Scalar
  pokS : Scalar

deriving DecidableEq, Repr

/-- Modelled from the spec: `Participant::new` (§4.1) samples the secret
polynomial, publishes the coefficient commitments, and proves knowledge of
the constant-term coefficient with a Schnorr proof.  The constant term is
the first coefficient; for `t = 0` there is none (the library indexes
`coefficients[0]`, a panic), so the result is `none`. -/
def mkParticipant (t : ℕ) (crng : ℕ → ℕ → Scalar) (prng : ℕ → Scalar) (j : ℕ) :
    Option Participant :=
  match polyCoeffs t crng j with
  | [] => none
  | a0 :: rest =>
    let k := prng j
    let c := pokChallenge (j + 1) a0 k
    some ⟨j + 1, a0 :: rest, k, k + c * a0⟩

/-- The participant record `mkParticipant` produces whenever `t ≥ 1`,
written without the pattern match. -/
def particip (t : ℕ) (crng : ℕ → ℕ → Scalar) (prng : ℕ → Scalar) (j : ℕ) : Participant :=
  let a0 := (polyCoeffs t crng j).headD 0
  let k := prng j
  ⟨j + 1, polyCoeffs t crng j, k, k + pokChallenge (j + 1) a0 k * a0⟩

/-- Modelled from the spec: verification of the proof of knowledge against
the participant's own published commitment and index (§4.1).  The wrapper
calls `public_key().unwrap()`, whose panic on an empty commitment list is
modelled by the `[]` case. -/
def pokVerify (p : Participant) : Bool :=
  match p.commitments with
  | [] => false
  | a0 :: _ => p.pokS == p.pokR + pokChallenge p.index a0 p.pokR * a0

/-- The 1-based indices `1..=n` of the participant vector built in step 1. -/
def participantIndices (n : ℕ) : List ℕ := (List.range n).map (· + 1)

/-- Modelled from the spec: round-1 share computation (§4.1).  The 0-based
participant `j` evaluates its polynomial at every other participant's index,
in the order of the participant vector with position `j` removed
(`other_participants.remove(i)` in the wrapper). -/
def theirSecretShares (t n : ℕ) (crng : ℕ → ℕ → Scalar) (j : ℕ) : List Scalar :=
  ((participantIndices n).eraseIdx j).map (fun r : ℕ => evalPoly (polyCoeffs t crng j) (r : ℚ))

/-- The vector `all_secret_shares` after round 1: entry `j` holds the shares
participant `j` (0-based) produced for the others. -/
def allSecretShares (t n : ℕ) (crng : ℕ → ℕ → Scalar) : List (List Scalar) :=
  (List.range n).map (theirSecretShares t n crng)

/-- The incoming-share list the wrapper assembles for 0-based participant `i`
(src/lib.rs lines 106-114): from every other participant's outgoing vector,
the entry at position `i` (when `i < j`) or `i - 1` (when `i > j`). -/
def mySecretShares (t n : ℕ) (crng : ℕ → ℕ → Scalar) (i : ℕ) : List Scalar :=
  (((allSecretShares t n crng).enum.filter (fun p => p.1 ≠ i)).filterMap
    (fun p => p.2.get? (if i < p.1 then i else i - 1)))

/-- Modelled from the spec: the Feldman verification equation (§4.2) — the
received share must equal the weighted sum of the sender's published
coefficient commitments at the recipient's index. -/
def feldmanCheck (commitments : List Scalar) (recipient : ℕ) (share : Scalar) : Bool :=
  share == evalPoly commitments (recipient : ℚ)

/-- Modelled from the spec: `to_round_two` (§4.2) — each incoming share is
checked against its sender's commitment; any failure aborts naming the
sender; on success the shares (plus the participant's own evaluation at its
own index) are summed into the long-lived secret share. -/
def toRoundTwo (t n : ℕ) (crng : ℕ → ℕ → Scalar) (i : ℕ) (shares : List Scalar) :
    Except KeyGenError Scalar :=
  let senders := (List.range n).filter (fun j => j ≠ i)
  match (senders.zip shares).find?
      (fun p => !feldmanCheck (polyCoeffs t crng p.1) (i + 1) p.2) with
  | some p => .error (.shareVerificationFailed (p.1 + 1))
  | none => .ok (evalPoly (polyCoeffs t crng i) ((i + 1 : ℕ) : ℚ) + shares.sum)

/-- Modelled from the spec: the group key each participant derives in
`finish` (§4.2) — the sum of every participant's constant-term commitment,
computed as the other participants' constant commitments plus its own. -/
def groupKeyOf (t n : ℕ) (crng : ℕ → ℕ → Scalar) (i : ℕ) : Scalar :=
  ((((List.range n).filter (fun j => j ≠ i)).map
      (fun j => (polyCoeffs t crng j).headD 0)).sum)
    + (polyCoeffs t crng i).headD 0

/-- The joint secret polynomial's evaluation: the sum over all participants
of their secret polynomial at `x`.  Each participant's long-lived secret
share is `Fval` at its own index, and the group secret is `Fval 0`. -/
def Fval (t n : ℕ) (crng : ℕ → ℕ → Scalar) (x : Scalar) : Scalar :=
  ((List.range n).map (fun j => evalPoly (polyCoeffs t crng j) x)).sum

/-- The group key as the plain sum of every participant's constant-term
commitment. -/
def GKtotal (t n : ℕ) (crng : ℕ → ℕ → Scalar) : Scalar :=
  ((List.range n).map (fun j => (polyCoeffs t crng j).headD 0)).sum

/-- The key-generation entry point (src/lib.rs lines 30-171), with the file
write externalized: a successful run returns the `FrostKeys` record the
wrapper serializes.  Randomness is explicit: `crng j k` is coefficient `k`
of participant `j`, `prng j` the proof nonce of participant `j`. -/
def generate_keys (t n : ℕ) (crng : ℕ → ℕ → Scalar) (prng : ℕ → Scalar) :
    Except KeyGenError FrostKeys :=
  if t > n then .error .thresholdExceedsParticipants
  else
    match (List.range n).mapM (mkParticipant t crng prng) with
    | none => .error .panic
    | some participants =>
      match participants.find? (fun p => !pokVerify p) with
      | some p => .error (.pokInvalid p.index)
      | none =>
        match (List.range n).mapM (fun i =>
            let mine := mySecretShares t n crng i
            if mine.length ≠ n - 1 then
              Except.error (KeyGenError.shareCountMismatch (n - 1) mine.length)
            else toRoundTwo t n crng i mine) with
        | .error e => .error e
        | .ok secrets =>
          if (List.range n).all
              (fun i => i == 0 || groupKeyOf t n crng i == groupKeyOf t n crng (i - 1)) then
            match (List.range n).map (groupKeyOf t n crng) with
            | [] => .error .panic
            | g0 :: _ =>
              .ok ⟨g0, secrets.enum.map (fun p => (p.2, p.1 + 1)), t⟩
          else .error .groupKeyAssertPanic

/-! ## Threshold signing (`sign_message`, src/lib.rs lines 184-283) -/

/-- Error outcomes of `sign_message` (the source reports strings; we use the
spec's named kinds). -/
inductive SignError
  | participantCountMismatch
  | insufficientSigners
  | invalidSigner (entry : ℕ)
  | duplicateSigner (index : ℕ)
  | notEnoughSigners
  | invalidContribution (index : ℕ)

deriving DecidableEq, Repr

/-- First index that occurs twice in a list, if any.  Models the point at
which the aggregator's `include_signer` sees an index it already holds. -/
def findDup : List ℕ → Option ℕ
  | [] => none
  | x :: xs => if x ∈ xs then some x else findDup xs

/-- The fixed domain-separation context string of the wrapper. -/
def signingContext : String := "THRESHOLD SIGNING CONTEXT"

/-- One chosen signer's session data: its long-lived secret share and
1-based index as read from the key file, plus its fresh (hiding, binding)
nonce pair.  The public commitment pair is `(d·G, e·G)`, numerically
`(d, e)` in this embedding. -/
structure SignerEntry where
  share : Scalar
  index : ℕ
  d : Scalar
  e : Scalar

deriving DecidableEq, Repr

/-- The per-signer session data assembled by steps 6-7 of `sign_message`:
entry `k` of the signer list yields the share record at 0-based position
`signers[k]` of the key file and the `k`-th fresh nonce pair. -/
def signerEntries (keys : FrostKeys) (signers : List ℕ) (nrng : ℕ → Scalar × Scalar) :
    List SignerEntry :=
  signers.enum.map (fun p =>
    let sh := keys.private_shares.getD p.2 (0, 0)
    ⟨sh.1, sh.2, (nrng p.1).1, (nrng p.1).2⟩)

/-- The Lagrange coefficient at 0 for index `i` over the signer index list
`L`, as the library computes it: `∏ j/(j - i)` over the other indices. -/
def lagr (L : List ℕ) (i : ℕ) : Scalar :=
  ((L.filter (fun j => j ≠ i)).map (fun j : ℕ => (j : ℚ) / ((j : ℚ) - (i : ℚ)))).prod

/-- The aggregate nonce point `R = Σ (D_j + ρ_j·E_j)` over the included
signers (numerically, since `G = 1`). -/
def bigR (entries : List SignerEntry) (digest : Scalar) (comList : ℕ) : Scalar :=
  (entries.map (fun en => en.d + bindingFactor en.index digest comList * en.e)).sum

/-- The partial signature `z_i = d_i + ρ_i·e_i + c·λ_i·s_i` a signer
produces (§4.4). -/
def partialZ (entries : List SignerEntry) (digest : Scalar) (comList : ℕ)
    (c : Scalar) (en : SignerEntry) : Scalar :=
  en.d + bindingFactor en.index digest comList * en.e
    + c * lagr (entries.map (fun x => x.index)) en.index * en.share

/-- The aggregator's check of one partial signature against the signer's
public commitment share and public key share (`z_i·G == R_i + c·λ_i·Y_i`,
with `Y_i = s_i·G`; numerically `G = 1`). -/
def partialOk (entries : List SignerEntry) (digest : Scalar) (comList : ℕ)
    (c : Scalar) (en : SignerEntry) (z : Scalar) : Bool :=
  z == (en.d + bindingFactor en.index digest comList * en.e)
    + c * lagr (entries.map (fun x => x.index)) en.index * en.share

/-- The signing entry point (src/lib.rs lines 184-283) with file I/O
externalized: the parsed key record comes in as a value and a successful
run returns the 64-byte signature vector the wrapper writes.  `nrng k` is
the `k`-th signer's fresh nonce pair.  The aggregator steps
(`include_signer` duplicate rejection, `finalize` threshold check,
`aggregate` partial-signature verification) are modelled from the spec
(§4.4), as `frost_dalek` is external. -/
def sign_message (message : String) (signers : List ℕ) (n : ℕ) (keys : FrostKeys)
    (nrng : ℕ → Scalar × Scalar) : Except SignError (List ℕ) :=
  if keys.private_shares.length ≠ n then .error .participantCountMismatch
  else if signers.length < keys.threshold then .error .insufficientSigners
  else match signers.find? (fun s => keys.private_shares.length ≤ s) with
  | some s => .error (.invalidSigner s)
  | none =>
    let entries := signerEntries keys signers nrng
    match findDup (entries.map (fun en => en.index)) with
    | some i => .error (.duplicateSigner i)
    | none =>
      let digest := computeMessageHash signingContext message
      let comList := comListEncode (entries.map (fun en => (en.index, en.d, en.e)))
      let r := bigR entries digest comList
      let c := challengeHash r keys.group_key digest
      if entries.length < keys.threshold then .error .notEnoughSigners
      else match entries.find?
          (fun en => !partialOk entries digest comList c en
            (partialZ entries digest comList c en)) with
      | some en => .error (.invalidContribution en.index)
      | none =>
        .ok (scalarToBytes r
          ++ scalarToBytes ((entries.map (partialZ entries digest comList c)).sum))

/-! ## Signature validation (`validate_signature`, src/lib.rs lines 300-345) -/

/-- Error outcomes of `validate_signature`. -/
inductive ValidateError
  | malformedSignatureLength
  | deserializationFailed
  | verificationFailed

deriving DecidableEq, Repr

/-- The validation entry point (src/lib.rs lines 300-345) with file I/O
externalized: the decoded signature byte vector and the parsed key record
come in as values.  The length-64 gate precedes deserialization; the final
check is the Schnorr equation `R == z·G - c·group_key` recomputed from
public values only. -/
def validate_signature (message : String) (keys : FrostKeys) (sigBytes : List ℕ) :
    Except ValidateError Unit :=
  if sigBytes.length ≠ 64 then .error .malformedSignatureLength
  else
    match scalarFromBytes (sigBytes.take 32), scalarFromBytes (sigBytes.drop 32) with
    | some r, some z =>
      let digest := computeMessageHash signingContext message
      let c := challengeHash r keys.group_key digest
      if r == z - c * keys.group_key then .ok ()
      else .error .verificationFailed
    | _, _ => .error .deserializationFailed

/-! ## Concrete instances used by witnesses and counterexamples -/

/-- A concrete coefficient randomness source. -/
def crngA : ℕ → ℕ → Scalar := fun j k => (j + k + 1 : ℚ)

/-- A concrete proof-nonce randomness source. -/
def prngA : ℕ → Scalar := fun j => (j + 7 : ℚ)

/-- A concrete signing-nonce randomness source. -/
def nrngA : ℕ → Scalar × Scalar := fun k => ((k + 2 : ℚ), (k + 5 : ℚ))

/-- The key record produced by `generate_keys 2 3 crngA prngA`. -/
def keysA : FrostKeys := ⟨6, [(15, 1), (24, 2), (33, 3)], 2⟩

/-- The key record produced by `generate_keys 1 2 crngA prngA`. -/
def keysB : FrostKeys := ⟨3, [(3, 1), (3, 2)], 1⟩

/-- A key record agreeing with `keysA` on `group_key` only. -/
def keysC : FrostKeys := ⟨6, [(99, 4)], 7⟩

/-- A coefficient randomness source whose constant terms sum to zero
(participant 0 draws `1`, all others `-1`), so that with `t = 1, n = 2`
the derived group key is the identity element. -/
def crng0 : ℕ → ℕ → Scalar := fun j _ => if j = 0 then 1 else -1

/-- The key record produced by `generate_keys 1 2 crng0 prngA`: a zero
group key and all-zero secret shares. -/
def keysZ : FrostKeys := ⟨0, [(0, 1), (0, 2)], 1⟩

/-- The signer-session data of the run `sign_message "hello" [0] 2 keysZ
nrngA` (steps 6-7 of the wrapper). -/
def entries0 : List SignerEntry := signerEntries keysZ [0] nrngA

/-- The message digest of that run (step 8). -/
def digest0 : Scalar := computeMessageHash signingContext "hello"

/-- The encoded commitment list of that run. -/
def comList0 : ℕ := comListEncode (entries0.map (fun en => (en.index, en.d, en.e)))

/-- The aggregate nonce point of that run. -/
def r0 : Scalar := bigR entries0 digest0 comList0

/-- The challenge of that run. -/
def c0 : Scalar := challengeHash r0 keysZ.group_key digest0

/-- The aggregated `z` of that run. -/
def z0 : Scalar := (entries0.map (partialZ entries0 digest0 comList0 c0)).sum

/-- The signature byte vector the run writes. -/
def sig0 : List ℕ := scalarToBytes r0 ++ scalarToBytes z0

/-! ## Lagrange interpolation bridge -/

/-- The polynomial of a coefficient list (constant term first), used only in
proofs to connect `evalPoly` with Mathlib's Lagrange interpolation. -/
noncomputable def toPoly (cs : List ℚ) : Polynomial ℚ :=
  cs.foldr (fun a p => Polynomial.C a + Polynomial.X * p) 0

/-- The joint secret polynomial as a `Polynomial ℚ`. -/
noncomputable def FPoly (t n : ℕ) (crng : ℕ → ℕ → Scalar) : Polynomial ℚ :=
  ((List.range n).map (fun j => toPoly (polyCoeffs t crng j))).sum

theorem intDecode_intEncode (z : ℤ) : intDecode (intEncode z) = z := by
  unfold intEncode intDecode
  by_cases h : 0 ≤ z
  · simp only [if_pos h, Nat.mul_mod_right, if_pos rfl]
    rw [Nat.mul_div_cancel_left _ (by norm_num)]
    exact Int.toNat_of_nonneg h
  · have hz : 1 ≤ (-z).toNat := by omega
    simp only [if_neg h]
    have h2 : (2 * (-z).toNat - 1) % 2 = 1 := by omega
    rw [if_neg (by omega)]
    have h3 : (2 * (-z).toNat - 1 + 1) / 2 = (-z).toNat := by omega
    rw [h3]
    omega

theorem ratDecode_ratEncode (x : ℚ) : ratDecode (ratEncode x) = x := by
  unfold ratDecode ratEncode
  rw [Nat.unpair_pair, intDecode_intEncode]
  exact_mod_cast Rat.num_div_den x

theorem ratEncode_injective : Function.Injective ratEncode := by
  intro a b h
  have := congrArg ratDecode h
  rwa [ratDecode_ratEncode, ratDecode_ratEncode] at this

theorem scalarToBytes_length (x : Scalar) : (scalarToBytes x).length = 32 := by
  simp [scalarToBytes]

theorem scalarFromBytes_scalarToBytes (x : Scalar) :
    scalarFromBytes (scalarToBytes x) = some x := by
  simp [scalarFromBytes, scalarToBytes, ratDecode_ratEncode]

theorem listEncode_injective : Function.Injective listEncode := by
  intro l m
  induction l generalizing m with
  | nil =>
    intro h
    cases m with
    | nil => rfl
    | cons b bs => simp [listEncode] at h
  | cons a as ih =>
    intro h
    cases m with
    | nil => simp [listEncode] at h
    | cons b bs =>
      have ha : listEncode (a :: as) = Nat.pair a (listEncode as) + 1 := rfl
      have hb : listEncode (b :: bs) = Nat.pair b (listEncode bs) + 1 := rfl
      have h1 : Nat.pair a (listEncode as) = Nat.pair b (listEncode bs) := by omega
      obtain ⟨hab, hrest⟩ := Nat.pair_eq_pair.mp h1
      rw [hab, ih hrest]

theorem natListEncode_injOn : ∀ (l m : List ℕ),
    (∀ x ∈ l, x + 1 < charBase) → (∀ x ∈ m, x + 1 < charBase) →
    natListEncode l = natListEncode m → l = m := by
  intro l
  induction l with
  | nil =>
    intro m _ hm h
    cases m with
    | nil => rfl
    | cons b bs =>
      exfalso
      have hb : natListEncode (b :: bs) = natListEncode bs * 1114113 + (b + 1) := rfl
      have h0 : natListEncode ([] : List ℕ) = 0 := rfl
      omega
  | cons a as ih =>
    intro m hl hm h
    cases m with
    | nil =>
      exfalso
      have ha : natListEncode (a :: as) = natListEncode as * 1114113 + (a + 1) := rfl
      have h0 : natListEncode ([] : List ℕ) = 0 := rfl
      omega
    | cons b bs =>
      have ha : natListEncode (a :: as) = natListEncode as * 1114113 + (a + 1) := rfl
      have hb : natListEncode (b :: bs) = natListEncode bs * 1114113 + (b + 1) := rfl
      have h1 : a + 1 < 1114113 := hl a (List.mem_cons_self a as)
      have h2 : b + 1 < 1114113 := hm b (List.mem_cons_self b bs)
      have hab : a = b := by omega
      have htl : natListEncode as = natListEncode bs := by omega
      rw [hab, ih bs (fun x hx => hl x (List.mem_cons_of_mem a hx))
        (fun x hx => hm x (List.mem_cons_of_mem b hx)) htl]

theorem char_toNat_lt (c : Char) : c.toNat < 1114112 := by
  have h := c.valid
  rcases h with h | ⟨_, h2⟩
  · exact Nat.lt_trans (by exact h) (by norm_num)
  · exact h2

theorem strEncode_injective : Function.Injective strEncode := by
  intro s t h
  unfold strEncode at h
  have hbound : ∀ (u : String) (x : ℕ), x ∈ u.data.map Char.toNat → x + 1 < charBase := by
    intro u x hx
    obtain ⟨c, _, rfl⟩ := List.mem_map.mp hx
    have := char_toNat_lt c
    unfold charBase
    omega
  have h2 := natListEncode_injOn _ _ (hbound s) (hbound t) h
  have h3 : s.data = t.data := by
    refine List.map_injective_iff.mpr ?_ h2
    intro a b hab
    have : Char.ofNat a.toNat = Char.ofNat b.toNat := by rw [hab]
    rwa [Char.ofNat_toNat, Char.ofNat_toNat] at this
  exact String.ext h3

theorem computeMessageHash_injOn_message {ctx : String} {m m' : String}
    (h : m ≠ m') : computeMessageHash ctx m ≠ computeMessageHash ctx m' := by
  unfold computeMessageHash
  intro hc
  have h2 : Nat.pair (strEncode ctx) (strEncode m)
      = Nat.pair (strEncode ctx) (strEncode m') := by exact_mod_cast hc
  exact h (strEncode_injective (Nat.pair_eq_pair.mp h2).2)

theorem challengeHash_injOn_digest {bigR groupKey : Scalar} {h h' : Scalar}
    (hne : h ≠ h') : challengeHash bigR groupKey h ≠ challengeHash bigR groupKey h' := by
  unfold challengeHash
  intro hc
  exact hne (by linarith)

theorem evalPoly_nil (x : Scalar) : evalPoly [] x = 0 := rfl

theorem evalPoly_cons (a : Scalar) (cs : List Scalar) (x : Scalar) :
    evalPoly (a :: cs) x = a + x * evalPoly cs x := rfl

theorem evalPoly_zero (cs : List Scalar) : evalPoly cs 0 = cs.headD 0 := by
  cases cs with
  | nil => rfl
  | cons a tl => simp [evalPoly_cons]

/-! ## Helper lemmas -/

theorem findDup_eq_none_iff {l : List ℕ} : findDup l = none ↔ l.Nodup := by
  induction l with
  | nil => simp [findDup]
  | cons x xs ih =>
    by_cases hx : x ∈ xs
    · simp [findDup, hx, List.nodup_cons]
    · simp [findDup, hx, List.nodup_cons, ih]

theorem signerEntries_map_index (keys : FrostKeys) (signers : List ℕ)
    (nrng : ℕ → Scalar × Scalar) :
    (signerEntries keys signers nrng).map (fun en => en.index)
      = signers.map (fun s => (keys.private_shares.getD s (0, 0)).2) := by
  unfold signerEntries
  rw [List.map_map]
  have h2 : (fun p : ℕ × ℕ => (keys.private_shares.getD p.2 (0, 0)).2)
      = (fun s => (keys.private_shares.getD s (0, 0)).2) ∘ Prod.snd := rfl
  calc (signers.enum.map ((fun en : SignerEntry => en.index) ∘ fun p =>
          ⟨(keys.private_shares.getD p.2 (0, 0)).1, (keys.private_shares.getD p.2 (0, 0)).2,
            (nrng p.1).1, (nrng p.1).2⟩))
      = signers.enum.map (fun p => (keys.private_shares.getD p.2 (0, 0)).2) := rfl
    _ = (signers.enum.map Prod.snd).map (fun s => (keys.private_shares.getD s (0, 0)).2) := by
        rw [List.map_map, h2]
    _ = signers.map (fun s => (keys.private_shares.getD s (0, 0)).2) := by
        rw [List.enum_map_snd]

theorem signerEntries_length (keys : FrostKeys) (signers : List ℕ)
    (nrng : ℕ → Scalar × Scalar) :
    (signerEntries keys signers nrng).length = signers.length := by
  simp [signerEntries]

theorem filterMap_eq_map_of_some {α β : Type _} (l : List α) (F : α → Option β) (G : α → β)
    (h : ∀ a ∈ l, F a = some (G a)) : l.filterMap F = l.map G := by
  induction l with
  | nil => rfl
  | cons a as ih =>
    rw [List.filterMap_cons, h a (List.mem_cons_self a as),
      ih (fun x hx => h x (List.mem_cons_of_mem a hx)), List.map_cons]

theorem mapM_option_eq_some {α β : Type _} (l : List α) (f : α → Option β) (g : α → β)
    (h : ∀ a ∈ l, f a = some (g a)) : l.mapM f = some (l.map g) := by
  induction l with
  | nil => rfl
  | cons a as ih =>
    rw [List.mapM_cons, h a (List.mem_cons_self a as),
      ih (fun x hx => h x (List.mem_cons_of_mem a hx))]
    rfl

theorem mapM_option_eq_none {α β : Type _} (l : List α) (f : α → Option β) (a : α)
    (ha : a ∈ l) (hf : f a = none) : l.mapM f = none := by
  induction l with
  | nil => cases ha
  | cons x xs ih =>
    rw [List.mapM_cons]
    rcases List.mem_cons.mp ha with rfl | hmem
    · rw [hf]; rfl
    · cases hx : f x with
      | none => rfl
      | some b =>
        rw [ih hmem]
        rfl

theorem mapM_except_eq_ok {ε : Type _} {α β : Type _} (l : List α) (f : α → Except ε β)
    (g : α → β) (h : ∀ a ∈ l, f a = .ok (g a)) : l.mapM f = .ok (l.map g) := by
  induction l with
  | nil => rfl
  | cons a as ih =>
    rw [List.mapM_cons, h a (List.mem_cons_self a as),
      ih (fun x hx => h x (List.mem_cons_of_mem a hx))]
    rfl

theorem length_filter_ne (l : List ℕ) (a : ℕ) (hn : l.Nodup) (ha : a ∈ l) :
    (l.filter (fun j => j ≠ a)).length = l.length - 1 := by
  induction l with
  | nil => cases ha
  | cons x xs ih =>
    rw [List.nodup_cons] at hn
    rcases List.mem_cons.mp ha with rfl | hmem
    · rw [List.filter_cons_of_neg (by simp), List.filter_eq_self.mpr ?hself]
      · simp
      case hself =>
        intro b hb
        simp only [ne_eq, decide_eq_true_eq]
        intro hbx
        exact hn.1 (hbx ▸ hb)
    · have hxa : x ≠ a := by
        intro hxa
        exact hn.1 (hxa ▸ hmem)
      rw [List.filter_cons_of_pos (by simpa using hxa)]
      have hlen : 1 ≤ xs.length := List.length_pos.mpr (List.ne_nil_of_mem hmem)
      simp only [List.length_cons, ih hn.2 hmem]
      omega

theorem sum_filter_ne_map (l : List ℕ) (a : ℕ) (hn : l.Nodup) (ha : a ∈ l) (g : ℕ → ℚ) :
    g a + ((l.filter (fun j => j ≠ a)).map g).sum = (l.map g).sum := by
  induction l with
  | nil => cases ha
  | cons x xs ih =>
    rw [List.nodup_cons] at hn
    rcases List.mem_cons.mp ha with rfl | hmem
    · rw [List.filter_cons_of_neg (by simp), List.filter_eq_self.mpr ?hself]
      · rw [List.map_cons, List.sum_cons]
      case hself =>
        intro b hb
        simp only [ne_eq, decide_eq_true_eq]
        intro hbx
        exact hn.1 (hbx ▸ hb)
    · have hxa : x ≠ a := by
        intro hxa
        exact hn.1 (hxa ▸ hmem)
      rw [List.filter_cons_of_pos (by simpa using hxa)]
      simp only [List.map_cons, List.sum_cons, ← ih hn.2 hmem]
      ring

theorem polyCoeffs_length (t : ℕ) (crng : ℕ → ℕ → Scalar) (j : ℕ) :
    (polyCoeffs t crng j).length = t := by
  simp [polyCoeffs]

theorem polyCoeffs_cons (t : ℕ) (crng : ℕ → ℕ → Scalar) (j : ℕ) (ht : 1 ≤ t) :
    polyCoeffs t crng j
      = crng j 0 :: (List.range (t - 1)).map (fun k => crng j (k + 1)) := by
  obtain ⟨u, rfl⟩ : ∃ u, t = u + 1 := ⟨t - 1, by omega⟩
  simp [polyCoeffs, List.range_succ_eq_map, List.map_map, Function.comp_def, Nat.succ_eq_add_one]

theorem mkParticipant_eq (t : ℕ) (crng : ℕ → ℕ → Scalar) (prng : ℕ → Scalar) (j : ℕ)
    (ht : 1 ≤ t) : mkParticipant t crng prng j = some (particip t crng prng j) := by
  unfold mkParticipant particip
  rw [polyCoeffs_cons t crng j ht]
  rfl

theorem pokVerify_particip (t : ℕ) (crng : ℕ → ℕ → Scalar) (prng : ℕ → Scalar) (j : ℕ)
    (ht : 1 ≤ t) : pokVerify (particip t crng prng j) = true := by
  unfold pokVerify particip
  rw [polyCoeffs_cons t crng j ht]
  simp

theorem zip_self_map {α β : Type _} (l : List α) (f : α → β) :
    l.zip (l.map f) = l.map (fun a => (a, f a)) := by
  induction l with
  | nil => rfl
  | cons a as ih => rw [List.map_cons, List.zip_cons_cons, ih, List.map_cons]

theorem theirSecretShares_length (t n : ℕ) (crng : ℕ → ℕ → Scalar) (j : ℕ) (hj : j < n) :
    (theirSecretShares t n crng j).length = n - 1 := by
  unfold theirSecretShares
  rw [List.length_map, List.length_eraseIdx]
  have h1 : (participantIndices n).length = n := by simp [participantIndices]
  rw [h1, if_pos hj]

theorem theirSecretShares_getElem (t n : ℕ) (crng : ℕ → ℕ → Scalar) (j pos : ℕ)
    (hj : j < n) (hpos : pos < n - 1) :
    (theirSecretShares t n crng j)[pos]?
      = some (evalPoly (polyCoeffs t crng j)
          (((if pos < j then pos + 1 else pos + 2) : ℕ) : ℚ)) := by
  unfold theirSecretShares participantIndices
  rw [List.getElem?_map, List.getElem?_eraseIdx]
  by_cases hc : pos < j
  · rw [if_pos hc, if_pos hc, List.getElem?_map, List.getElem?_range (by omega)]
    rfl
  · rw [if_neg hc, if_neg hc, List.getElem?_map, List.getElem?_range (by omega)]
    rfl

theorem enum_map_range {α : Type _} (n : ℕ) (f : ℕ → α) :
    ((List.range n).map f).enum = (List.range n).map (fun i => (i, f i)) := by
  apply List.ext_getElem
  · simp [List.enum_length]
  · intro k h1 h2
    simp only [List.getElem_enum, List.getElem_map, List.getElem_range]

theorem mySecretShares_eq (t n : ℕ) (crng : ℕ → ℕ → Scalar) (i : ℕ) (hi : i < n) :
    mySecretShares t n crng i
      = ((List.range n).filter (fun j => j ≠ i)).map
          (fun j => evalPoly (polyCoeffs t crng j) ((i + 1 : ℕ) : ℚ)) := by
  unfold mySecretShares allSecretShares
  rw [enum_map_range, List.filter_map, List.filterMap_map]
  apply filterMap_eq_map_of_some
  intro j hj
  obtain ⟨hjr, hji'⟩ := List.mem_filter.mp hj
  have hjn : j < n := List.mem_range.mp hjr
  have hji : j ≠ i := by simpa using hji'
  show (theirSecretShares t n crng j).get? (if i < j then i else i - 1) = _
  rw [List.get?_eq_getElem?]
  by_cases hc : i < j
  · rw [if_pos hc, theirSecretShares_getElem t n crng j i hjn (by omega), if_pos hc]
  · rw [if_neg hc, theirSecretShares_getElem t n crng j (i - 1) hjn (by omega),
      if_neg (by omega)]
    have h12 : i - 1 + 2 = i + 1 := by omega
    rw [h12]

theorem mySecretShares_length (t n : ℕ) (crng : ℕ → ℕ → Scalar) (i : ℕ) (hi : i < n) :
    (mySecretShares t n crng i).length = n - 1 := by
  rw [mySecretShares_eq t n crng i hi, List.length_map,
    length_filter_ne _ _ (List.nodup_range n) (List.mem_range.mpr hi), List.length_range]

theorem groupKeyOf_eq_total (t n : ℕ) (crng : ℕ → ℕ → Scalar) (i : ℕ) (hi : i < n) :
    groupKeyOf t n crng i = GKtotal t n crng := by
  unfold groupKeyOf GKtotal
  rw [add_comm]
  exact sum_filter_ne_map (List.range n) i (List.nodup_range n) (List.mem_range.mpr hi)
    (fun j => (polyCoeffs t crng j).headD 0)

theorem toRoundTwo_mySecretShares (t n : ℕ) (crng : ℕ → ℕ → Scalar) (i : ℕ) (hi : i < n) :
    toRoundTwo t n crng i (mySecretShares t n crng i)
      = .ok (Fval t n crng ((i + 1 : ℕ) : ℚ)) := by
  unfold toRoundTwo
  rw [mySecretShares_eq t n crng i hi]
  dsimp only
  rw [zip_self_map]
  have hfind : (((List.range n).filter (fun j => j ≠ i)).map
        (fun j => (j, evalPoly (polyCoeffs t crng j) ((i + 1 : ℕ) : ℚ)))).find?
          (fun p => !feldmanCheck (polyCoeffs t crng p.1) (i + 1) p.2) = none := by
    rw [List.find?_eq_none]
    intro x hx
    obtain ⟨j, _, rfl⟩ := List.mem_map.mp hx
    simp [feldmanCheck]
  rw [hfind]
  show Except.ok _ = Except.ok _
  congr 1
  unfold Fval
  exact sum_filter_ne_map (List.range n) i (List.nodup_range n) (List.mem_range.mpr hi)
    (fun j => evalPoly (polyCoeffs t crng j) ((i + 1 : ℕ) : ℚ))

theorem generate_keys_ok (t n : ℕ) (crng : ℕ → ℕ → Scalar) (prng : ℕ → Scalar)
    (ht : 1 ≤ t) (htn : t ≤ n) :
    generate_keys t n crng prng
      = .ok ⟨GKtotal t n crng,
          (List.range n).map (fun i => (Fval t n crng ((i + 1 : ℕ) : ℚ), i + 1)), t⟩ := by
  unfold generate_keys
  rw [if_neg (by omega)]
  rw [mapM_option_eq_some _ _ (particip t crng prng)
    (fun j _ => mkParticipant_eq t crng prng j ht)]
  dsimp only
  have hpok : ((List.range n).map (particip t crng prng)).find? (fun p => !pokVerify p)
      = none := by
    rw [List.find?_eq_none]
    intro p hp
    obtain ⟨j, _, rfl⟩ := List.mem_map.mp hp
    simp [pokVerify_particip t crng prng j ht]
  rw [hpok]
  dsimp only
  have hround : ∀ a ∈ List.range n,
      (if (mySecretShares t n crng a).length ≠ n - 1 then
          Except.error (KeyGenError.shareCountMismatch (n - 1) (mySecretShares t n crng a).length)
        else toRoundTwo t n crng a (mySecretShares t n crng a))
        = Except.ok (Fval t n crng ((a + 1 : ℕ) : ℚ)) := by
    intro a ha
    have ha := List.mem_range.mp ha
    rw [if_neg (by rw [mySecretShares_length t n crng a ha]; omega)]
    exact toRoundTwo_mySecretShares t n crng a ha
  rw [mapM_except_eq_ok _ _ (fun i => Fval t n crng ((i + 1 : ℕ) : ℚ)) hround]
  dsimp only
  have hall : ((List.range n).all
      (fun i => i == 0 || groupKeyOf t n crng i == groupKeyOf t n crng (i - 1))) = true := by
    rw [List.all_eq_true]
    intro i hi
    have hi := List.mem_range.mp hi
    by_cases h0 : i = 0
    · simp [h0]
    · have h1 : groupKeyOf t n crng i = groupKeyOf t n crng (i - 1) := by
        rw [groupKeyOf_eq_total t n crng i hi, groupKeyOf_eq_total t n crng (i - 1) (by omega)]
      simp [h1]
  rw [if_pos hall]
  cases hn : (List.range n).map (groupKeyOf t n crng) with
  | nil =>
    exfalso
    have := congrArg List.length hn
    simp at this
    omega
  | cons g0 tl =>
    have hg0 : g0 = groupKeyOf t n crng 0 := by
      have h1 := congrArg (fun l => l[0]?) hn
      simp only [List.getElem?_map] at h1
      rw [List.getElem?_range (by omega)] at h1
      simp at h1
      exact h1.symm
    rw [hg0, groupKeyOf_eq_total t n crng 0 (by omega)]
    rw [enum_map_range, List.map_map]
    rfl

theorem generate_keys_t_zero (n : ℕ) (crng : ℕ → ℕ → Scalar) (prng : ℕ → Scalar)
    (hn : 1 ≤ n) : generate_keys 0 n crng prng = .error .panic := by
  unfold generate_keys
  rw [if_neg (by omega)]
  rw [mapM_option_eq_none (List.range n) _ 0 (List.mem_range.mpr hn) rfl]

theorem generate_keys_cases (t n : ℕ) (crng : ℕ → ℕ → Scalar) (prng : ℕ → Scalar) :
    (t > n ∧ generate_keys t n crng prng = .error .thresholdExceedsParticipants) ∨
    (t = 0 ∧ generate_keys t n crng prng = .error .panic) ∨
    (1 ≤ t ∧ t ≤ n ∧ generate_keys t n crng prng
      = .ok ⟨GKtotal t n crng,
          (List.range n).map (fun i => (Fval t n crng ((i + 1 : ℕ) : ℚ), i + 1)), t⟩) := by
  by_cases htn : t > n
  · left
    refine ⟨htn, ?_⟩
    unfold generate_keys
    rw [if_pos htn]
  · by_cases ht : 1 ≤ t
    · right; right
      exact ⟨ht, by omega, generate_keys_ok t n crng prng ht (by omega)⟩
    · right; left
      have ht0 : t = 0 := by omega
      subst ht0
      refine ⟨rfl, ?_⟩
      by_cases hn : 1 ≤ n
      · exact generate_keys_t_zero n crng prng hn
      · have hn0 : n = 0 := by omega
        subst hn0
        rfl

/-! ## Claim C10 -/

/-- Claim C10: `sign_message` requires its `n` argument to equal the number
of stored private shares — whenever they differ it fails with the
participant-count error before any other validation or signing work,
regardless of message and signer list. -/
theorem sign_message_count_mismatch (message : String) (signers : List ℕ) (n : ℕ)
    (keys : FrostKeys) (nrng : ℕ → Scalar × Scalar)
    (h : keys.private_shares.length ≠ n) :
    sign_message message signers n keys nrng = .error .participantCountMismatch := by
  simp [sign_message, h]

/-- Witness for C10 at a concrete input. -/
theorem sign_message_count_mismatch_witness :
    sign_message "hello" [0] 5 keysA nrngA = .error .participantCountMismatch :=
  sign_message_count_mismatch "hello" [0] 5 keysA nrngA (by decide)

/-! ## Claim C3 -/

/-- Claim C3: for a key file with threshold `t` and a signer list shorter
than `t`, `sign_message` (called with the matching participant count)
returns the insufficient-signers error, producing no signature. -/
theorem sign_message_insufficient (message : String) (signers : List ℕ) (n : ℕ)
    (keys : FrostKeys) (nrng : ℕ → Scalar × Scalar)
    (h1 : keys.private_shares.length = n)
    (h2 : signers.length < keys.threshold) :
    sign_message message signers n keys nrng = .error .insufficientSigners := by
  simp [sign_message, h1, h2]

/-- Witness for C3: scenario B (`t = 2`, signer set `{1}`). -/
theorem sign_message_insufficient_witness :
    sign_message "hello" [1] 3 keysA nrngA = .error .insufficientSigners :=
  sign_message_insufficient "hello" [1] 3 keysA nrngA (by decide) (by decide)

/-! ## Claim C9 -/

/-- Claim C9: a decoded signature vector whose length is not 64 makes
`validate_signature` return an error (no panic); deserialization and
verification are reached only at length exactly 64. -/
theorem validate_signature_length_gate (message : String) (keys : FrostKeys)
    (sigBytes : List ℕ) (h : sigBytes.length ≠ 64) :
    validate_signature message keys sigBytes = .error .malformedSignatureLength := by
  simp [validate_signature, h]

/-- Witness for C9 at a concrete input. -/
theorem validate_signature_length_gate_witness :
    validate_signature "hello" keysA [] = .error .malformedSignatureLength :=
  validate_signature_length_gate "hello" keysA [] (by decide)

/-! ## Claim C8 -/

/-- Claim C8: `validate_signature` depends only on public values — two key
records agreeing on `group_key` produce the same validation result on every
message and signature, whatever their private shares and thresholds. -/
theorem validate_signature_public_only (message : String) (keys keys' : FrostKeys)
    (sigBytes : List ℕ) (h : keys.group_key = keys'.group_key) :
    validate_signature message keys sigBytes
      = validate_signature message keys' sigBytes := by
  unfold validate_signature
  rw [h]

/-- Witness for C8: `keysA` and `keysC` share only the group key. -/
theorem validate_signature_public_only_witness :
    keysA.private_shares ≠ keysC.private_shares ∧ keysA.threshold ≠ keysC.threshold ∧
    validate_signature "hello" keysA [3] = validate_signature "hello" keysC [3] :=
  ⟨by decide, by decide, validate_signature_public_only "hello" keysA keysC [3] (by decide)⟩

theorem toPoly_eval (cs : List ℚ) (x : ℚ) : (toPoly cs).eval x = evalPoly cs x := by
  induction cs with
  | nil => simp [toPoly, evalPoly]
  | cons a tl ih =>
    simp only [toPoly, List.foldr_cons] at ih ⊢
    rw [evalPoly_cons, Polynomial.eval_add, Polynomial.eval_C, Polynomial.eval_mul,
      Polynomial.eval_X, ih]

theorem toPoly_degree_lt (cs : List ℚ) :
    (toPoly cs).degree < ((cs.length : ℕ) : WithBot ℕ) := by
  induction cs with
  | nil =>
    rw [show toPoly [] = 0 from rfl, Polynomial.degree_zero]
    exact WithBot.bot_lt_coe _
  | cons a tl ih =>
    rw [show toPoly (a :: tl) = Polynomial.C a + Polynomial.X * toPoly tl from rfl]
    apply lt_of_le_of_lt (Polynomial.degree_add_le _ _)
    rw [sup_lt_iff]
    constructor
    · apply lt_of_le_of_lt Polynomial.degree_C_le
      exact_mod_cast Nat.succ_pos tl.length
    · rw [Polynomial.degree_mul, Polynomial.degree_X]
      have h1 : ((tl.length + 1 : ℕ) : WithBot ℕ) = 1 + ((tl.length : ℕ) : WithBot ℕ) := by
        push_cast
        ring
      rw [List.length_cons, h1]
      exact WithBot.add_lt_add_left (by simp) ih

theorem FPoly_eval (t n : ℕ) (crng : ℕ → ℕ → Scalar) (x : ℚ) :
    (FPoly t n crng).eval x = Fval t n crng x := by
  unfold FPoly Fval
  rw [show (Polynomial.eval x : Polynomial ℚ → ℚ) = (Polynomial.evalRingHom x : Polynomial ℚ →+* ℚ)
    from rfl, map_list_sum, List.map_map]
  apply congrArg
  apply List.map_congr_left
  intro j _
  exact toPoly_eval _ _

theorem FPoly_degree_lt (t n : ℕ) (crng : ℕ → ℕ → Scalar) :
    (FPoly t n crng).degree < ((t : ℕ) : WithBot ℕ) := by
  unfold FPoly
  induction List.range n with
  | nil =>
    rw [List.map_nil, List.sum_nil, Polynomial.degree_zero]
    exact WithBot.bot_lt_coe _
  | cons j js ih =>
    rw [List.map_cons, List.sum_cons]
    apply lt_of_le_of_lt (Polynomial.degree_add_le _ _)
    rw [sup_lt_iff]
    refine ⟨?_, ih⟩
    have h1 := toPoly_degree_lt (polyCoeffs t crng j)
    rwa [polyCoeffs_length] at h1

theorem lagrange_basis_eval_zero (s : Finset ℕ) (i : ℕ) :
    (Lagrange.basis s (fun j : ℕ => (j : ℚ)) i).eval 0
      = ∏ j in s.erase i, ((j : ℚ) / ((j : ℚ) - (i : ℚ))) := by
  unfold Lagrange.basis
  rw [Polynomial.eval_prod]
  apply Finset.prod_congr rfl
  intro j _
  rw [Lagrange.basisDivisor, Polynomial.eval_mul, Polynomial.eval_C, Polynomial.eval_sub,
    Polynomial.eval_X, Polynomial.eval_C]
  have hneg : ((i : ℚ) - (j : ℚ)) = -((j : ℚ) - (i : ℚ)) := by ring
  rw [hneg, inv_neg, div_eq_mul_inv]
  ring

theorem lagrange_sum_eval_zero (s : Finset ℕ) (f : Polynomial ℚ)
    (hdeg : f.degree < (s.card : WithBot ℕ)) :
    ∑ i in s, (∏ j in s.erase i, ((j : ℚ) / ((j : ℚ) - (i : ℚ)))) * f.eval (i : ℚ)
      = f.eval 0 := by
  have hinj : Set.InjOn (fun j : ℕ => (j : ℚ)) s := fun a _ b _ h => Nat.cast_injective h
  have h := Lagrange.eq_interpolate hinj hdeg
  have h0 := congrArg (Polynomial.eval 0) h
  rw [Lagrange.interpolate_apply, Polynomial.eval_finset_sum] at h0
  rw [h0]
  apply Finset.sum_congr rfl
  intro i hi
  rw [Polynomial.eval_mul, Polynomial.eval_C, lagrange_basis_eval_zero s i]
  ring

theorem lagr_eq_finset_prod (L : List ℕ) (hnd : L.Nodup) (i : ℕ) :
    lagr L i = ∏ j in L.toFinset.erase i, ((j : ℚ) / ((j : ℚ) - (i : ℚ))) := by
  unfold lagr
  rw [← List.prod_toFinset _ (hnd.filter _)]
  have hfin : (L.filter (fun j => j ≠ i)).toFinset = L.toFinset.erase i := by
    rw [List.toFinset_filter]
    rw [show (Finset.filter (fun x => (fun j => decide (j ≠ i)) x = true) L.toFinset)
        = Finset.filter (fun x => x ≠ i) L.toFinset from Finset.filter_congr (by simp)]
    exact Finset.filter_ne' _ _
  rw [hfin]

theorem lagrange_shares (t n : ℕ) (crng : ℕ → ℕ → Scalar) (L : List ℕ)
    (hnd : L.Nodup) (hlen : t ≤ L.length) :
    (L.map (fun i : ℕ => lagr L i * Fval t n crng ((i : ℕ) : ℚ))).sum
      = Fval t n crng 0 := by
  have hdeg : (FPoly t n crng).degree < (L.toFinset.card : WithBot ℕ) := by
    rw [List.toFinset_card_of_nodup hnd]
    exact lt_of_lt_of_le (FPoly_degree_lt t n crng) (by exact_mod_cast hlen)
  have h := lagrange_sum_eval_zero L.toFinset (FPoly t n crng) hdeg
  simp only [FPoly_eval] at h
  rw [← List.sum_toFinset _ hnd]
  rw [← h]
  apply Finset.sum_congr rfl
  intro i hi
  rw [lagr_eq_finset_prod L hnd i]

/-! ## Signing pipeline lemmas -/

theorem getD_map_range {α : Type _} (n s : ℕ) (f : ℕ → α) (d : α) (hs : s < n) :
    ((List.range n).map f).getD s d = f s := by
  rw [List.getD_eq_getElem?_getD, List.getElem?_map, List.getElem?_range hs]
  rfl

theorem enum_map_snd_comp {α β : Type _} (l : List α) (f : α → β) :
    l.enum.map (fun p => f p.2) = l.map f := by
  have h1 : (fun p : ℕ × α => f p.2) = f ∘ Prod.snd := rfl
  rw [h1, ← List.map_map, List.enum_map_snd]

theorem mem_enum_snd {α : Type _} {l : List α} {p : ℕ × α} (hp : p ∈ l.enum) : p.2 ∈ l := by
  have h1 : p.2 ∈ l.enum.map Prod.snd := List.mem_map_of_mem Prod.snd hp
  rwa [List.enum_map_snd] at h1

theorem Fval_zero (t n : ℕ) (crng : ℕ → ℕ → Scalar) :
    Fval t n crng 0 = GKtotal t n crng := by
  unfold Fval GKtotal
  apply congrArg
  apply List.map_congr_left
  intro j _
  exact evalPoly_zero _

theorem sum_partialZ (E' E : List SignerEntry) (d : Scalar) (cl : ℕ) (c : Scalar) :
    (E'.map (partialZ E d cl c)).sum
      = (E'.map (fun en => en.d + bindingFactor en.index d cl * en.e)).sum
        + c * (E'.map (fun en =>
            lagr (E.map (fun x => x.index)) en.index * en.share)).sum := by
  induction E' with
  | nil => simp
  | cons a as ih =>
    simp only [List.map_cons, List.sum_cons, ih, partialZ]
    ring

/-- Success of the signing pipeline on a key record of the shape
`generate_keys` produces: the run returns the serialized `(R, z)` signature
and `z` satisfies the Schnorr equation for the recomputed challenge. -/
theorem sign_message_ok (t n : ℕ) (crng : ℕ → ℕ → Scalar) (nrng : ℕ → Scalar × Scalar)
    (signers : List ℕ) (message : String)
    (hnd : signers.Nodup) (hmem : ∀ s ∈ signers, s < n) (hlen : t ≤ signers.length) :
    ∃ r z, sign_message message signers n
        ⟨GKtotal t n crng,
          (List.range n).map (fun i => (Fval t n crng ((i + 1 : ℕ) : ℚ), i + 1)), t⟩ nrng
        = .ok (scalarToBytes r ++ scalarToBytes z)
      ∧ z = r + challengeHash r (GKtotal t n crng)
          (computeMessageHash signingContext message) * GKtotal t n crng := by
  set keys : FrostKeys :=
    ⟨GKtotal t n crng,
      (List.range n).map (fun i => (Fval t n crng ((i + 1 : ℕ) : ℚ), i + 1)), t⟩ with hkeys
  have hlength : keys.private_shares.length = n := by
    rw [hkeys]
    simp
  have hthreshold : keys.threshold = t := rfl
  have hgk : keys.group_key = GKtotal t n crng := rfl
  have hentries : signerEntries keys signers nrng
      = signers.enum.map (fun p =>
          ⟨Fval t n crng ((p.2 + 1 : ℕ) : ℚ), p.2 + 1, (nrng p.1).1, (nrng p.1).2⟩) := by
    unfold signerEntries
    apply List.map_congr_left
    intro p hp
    have hps : p.2 < n := hmem p.2 (mem_enum_snd hp)
    have hgetD : keys.private_shares.getD p.2 (0, 0)
        = (Fval t n crng ((p.2 + 1 : ℕ) : ℚ), p.2 + 1) := by
      rw [hkeys]
      exact getD_map_range n p.2 _ (0, 0) hps
    rw [hgetD]
  have hindex : (signerEntries keys signers nrng).map (fun en => en.index)
      = signers.map (fun s => s + 1) := by
    rw [hentries, List.map_map]
    exact enum_map_snd_comp signers (fun s => s + 1)
  have hEnodup : ((signerEntries keys signers nrng).map (fun en => en.index)).Nodup := by
    rw [hindex]
    exact hnd.map (fun a b h => by omega)
  have hElen : (signerEntries keys signers nrng).length = signers.length :=
    signerEntries_length keys signers nrng
  unfold sign_message
  rw [if_neg (by rw [hlength]; omega)]
  rw [if_neg (by omega)]
  have hfind : signers.find? (fun s => decide (keys.private_shares.length ≤ s)) = none := by
    rw [List.find?_eq_none]
    intro s hs
    rw [hlength]
    simp only [decide_eq_true_eq, not_le]
    exact hmem s hs
  rw [hfind]
  dsimp only
  rw [findDup_eq_none_iff.mpr hEnodup]
  dsimp only
  rw [if_neg (by rw [hElen]; omega)]
  have hcontrib : (signerEntries keys signers nrng).find?
      (fun en => !partialOk (signerEntries keys signers nrng)
        (computeMessageHash signingContext message)
        (comListEncode ((signerEntries keys signers nrng).map (fun en => (en.index, en.d, en.e))))
        (challengeHash
          (bigR (signerEntries keys signers nrng) (computeMessageHash signingContext message)
            (comListEncode ((signerEntries keys signers nrng).map
              (fun en => (en.index, en.d, en.e)))))
          keys.group_key (computeMessageHash signingContext message))
        en
        (partialZ (signerEntries keys signers nrng) (computeMessageHash signingContext message)
          (comListEncode ((signerEntries keys signers nrng).map
            (fun en => (en.index, en.d, en.e))))
          (challengeHash
            (bigR (signerEntries keys signers nrng) (computeMessageHash signingContext message)
              (comListEncode ((signerEntries keys signers nrng).map
                (fun en => (en.index, en.d, en.e)))))
            keys.group_key (computeMessageHash signingContext message))
          en)) = none := by
    rw [List.find?_eq_none]
    intro en _
    simp [partialOk, partialZ]
  rw [hcontrib]
  refine ⟨_, _, rfl, ?_⟩
  rw [sum_partialZ]
  have hR : ((signerEntries keys signers nrng).map
      (fun en => en.d + bindingFactor en.index (computeMessageHash signingContext message)
        (comListEncode ((signerEntries keys signers nrng).map
          (fun en => (en.index, en.d, en.e)))) * en.e)).sum
      = bigR (signerEntries keys signers nrng) (computeMessageHash signingContext message)
          (comListEncode ((signerEntries keys signers nrng).map
            (fun en => (en.index, en.d, en.e)))) := rfl
  rw [hR]
  apply congrArg
  apply congrArg
  have hshare : ((signerEntries keys signers nrng).map
      (fun en => lagr ((signerEntries keys signers nrng).map (fun x => x.index)) en.index
        * en.share)).sum
      = ((signers.map (fun s => s + 1)).map
          (fun i : ℕ => lagr (signers.map (fun s => s + 1)) i
            * Fval t n crng ((i : ℕ) : ℚ))).sum := by
    rw [hindex, hentries, List.map_map, List.map_map]
    exact congrArg List.sum (enum_map_snd_comp signers
      (fun s => lagr (signers.map (fun s2 => s2 + 1)) (s + 1)
        * Fval t n crng ((s + 1 : ℕ) : ℚ)))
  rw [hshare]
  rw [lagrange_shares t n crng (signers.map (fun s => s + 1))
    (hnd.map (fun a b h => by omega)) (by rw [List.length_map]; omega)]
  exact Fval_zero t n crng

theorem take_32_append (r z : Scalar) :
    (scalarToBytes r ++ scalarToBytes z).take 32 = scalarToBytes r := by
  rw [← scalarToBytes_length r]
  exact List.take_left _ _

theorem drop_32_append (r z : Scalar) :
    (scalarToBytes r ++ scalarToBytes z).drop 32 = scalarToBytes z := by
  rw [← scalarToBytes_length r]
  exact List.drop_left _ _

/-- A serialized `(R, z)` pair satisfying the Schnorr equation for the
message's recomputed challenge validates successfully. -/
theorem validate_roundtrip (keys : FrostKeys) (message : String) (r z : Scalar)
    (hz : z = r + challengeHash r keys.group_key (computeMessageHash signingContext message)
      * keys.group_key) :
    validate_signature message keys (scalarToBytes r ++ scalarToBytes z) = .ok () := by
  unfold validate_signature
  rw [if_neg (by rw [List.length_append, scalarToBytes_length, scalarToBytes_length]; omega)]
  rw [take_32_append, drop_32_append, scalarFromBytes_scalarToBytes,
    scalarFromBytes_scalarToBytes]
  dsimp only
  rw [if_pos (by rw [hz]; simp)]

/-- A serialized `(R, z)` pair satisfying the Schnorr equation for one
message fails validation against every other message, provided the group
key is not the identity. -/
theorem validate_wrong_message (keys : FrostKeys) (message message' : String)
    (hne : message' ≠ message) (hY : keys.group_key ≠ 0) (r z : Scalar)
    (hz : z = r + challengeHash r keys.group_key (computeMessageHash signingContext message)
      * keys.group_key) :
    validate_signature message' keys (scalarToBytes r ++ scalarToBytes z)
      = .error .verificationFailed := by
  unfold validate_signature
  rw [if_neg (by rw [List.length_append, scalarToBytes_length, scalarToBytes_length]; omega)]
  rw [take_32_append, drop_32_append, scalarFromBytes_scalarToBytes,
    scalarFromBytes_scalarToBytes]
  dsimp only
  rw [if_neg ?hcond]
  case hcond =>
    simp only [beq_iff_eq]
    intro heq
    rw [hz] at heq
    have hc : challengeHash r keys.group_key (computeMessageHash signingContext message)
        ≠ challengeHash r keys.group_key (computeMessageHash signingContext message') :=
      challengeHash_injOn_digest (computeMessageHash_injOn_message (fun h => hne h.symm))
    have h3 : (challengeHash r keys.group_key (computeMessageHash signingContext message)
        - challengeHash r keys.group_key (computeMessageHash signingContext message'))
        * keys.group_key = 0 := by linear_combination -heq
    rcases mul_eq_zero.mp h3 with h4 | h4
    · exact hc (by linarith [sub_eq_zero.mp h4])
    · exact hY h4

/-- Claim C1 (amended): for keys from every successful `generate_keys`
run, any distinct signer subset of valid entries of size at least the
stored threshold signs successfully and the produced signature validates
against the same message; validating with any other message fails with a
verification error whenever the run's group key is not the identity
element — the one family of runs, exhibited by the counterexample, on
which the original claim fails (there every message validates). -/
theorem sign_then_validate (t n : ℕ) (crng : ℕ → ℕ → Scalar) (prng : ℕ → Scalar)
    (nrng : ℕ → Scalar × Scalar) (keys : FrostKeys)
    (hkeys : generate_keys t n crng prng = .ok keys)
    (signers : List ℕ) (hnd : signers.Nodup) (hmem : ∀ s ∈ signers, s < n)
    (hlen : keys.threshold ≤ signers.length) (message : String) :
    ∃ sig, sign_message message signers n keys nrng = .ok sig
      ∧ validate_signature message keys sig = .ok ()
      ∧ (keys.group_key ≠ 0 → ∀ message', message' ≠ message →
          validate_signature message' keys sig = .error .verificationFailed) := by
  rcases generate_keys_cases t n crng prng with ⟨_, h⟩ | ⟨_, h⟩ | ⟨ht, htn, h⟩ <;>
    rw [h] at hkeys
  · cases hkeys
  · cases hkeys
  · injection hkeys with h2
    subst h2
    obtain ⟨r, z, hsig, hz⟩ :=
      sign_message_ok t n crng nrng signers message hnd hmem (by exact hlen)
    exact ⟨_, hsig, validate_roundtrip _ message r z hz,
      fun hY message' hne => validate_wrong_message _ message message' hne hY r z hz⟩

/-- Witness for C1: scenario A/C — `t = 2, n = 3`, signers `{1, 2}`,
message `"hello"`, wrong message `"hellp"`; `keysA` has group key `6 ≠ 0`. -/
theorem sign_then_validate_witness :
    ∃ sig, sign_message "hello" [1, 2] 3 keysA nrngA = .ok sig
      ∧ validate_signature "hello" keysA sig = .ok ()
      ∧ validate_signature "hellp" keysA sig = .error .verificationFailed := by
  obtain ⟨sig, h1, h2, h3⟩ := sign_then_validate 2 3 crngA prngA nrngA keysA
    (by with_unfolding_all rfl) [1, 2]
    (by decide) (by decide) (by decide) "hello"
  exact ⟨sig, h1, h2, h3 (by norm_num [keysA]) "hellp" (by decide)⟩

theorem find?_partialOk_none (E : List SignerEntry) (d : Scalar) (cl : ℕ) (c : Scalar) :
    E.find? (fun en => !partialOk E d cl c en (partialZ E d cl c en)) = none := by
  rw [List.find?_eq_none]
  intro en _
  simp [partialOk, partialZ]

/-- With an identity group key, any serialized `(r, z)` pair with `z = r`
validates against every message: the Schnorr check degenerates to
`r == z - c·0`. -/
theorem validate_zero_group_key (keys : FrostKeys) (message : String) (r z : Scalar)
    (hgk : keys.group_key = 0) (hz : z = r) :
    validate_signature message keys (scalarToBytes r ++ scalarToBytes z) = .ok () := by
  unfold validate_signature
  rw [if_neg (by rw [List.length_append, scalarToBytes_length, scalarToBytes_length]; omega)]
  rw [take_32_append, drop_32_append, scalarFromBytes_scalarToBytes,
    scalarFromBytes_scalarToBytes]
  dsimp only
  rw [if_pos (by rw [hgk, hz]; simp)]

/-- In the zero-group-key run every secret share is `0`, so the aggregated
`z` collapses to the aggregate nonce point `r`. -/
theorem z0_eq_r0 : z0 = r0 := by
  unfold z0 r0
  rw [sum_partialZ]
  have hE : entries0 = [⟨0, 1, 2, 5⟩] := by with_unfolding_all rfl
  rw [hE]
  unfold bigR
  simp

/-- Claim C1 (counterexample): the original claim fails on the reachable
`generate_keys` runs whose random constant terms sum to the identity.
With `crng0` (participant 0 draws constant term `1`, participant 1 draws
`-1`), `generate_keys 1 2` succeeds with group key `0`; the valid signer
subset `[0]` (size = threshold) signs `"hello"` successfully, and the
written signature then validates for the distinct message `"hellp"` as
well, instead of failing with a verification error. -/
theorem sign_then_validate_zero_key_counterexample :
    ("hellp" : String) ≠ "hello" ∧
    generate_keys 1 2 crng0 prngA = .ok keysZ ∧
    sign_message "hello" [0] 2 keysZ nrngA = .ok sig0 ∧
    validate_signature "hello" keysZ sig0 = .ok () ∧
    validate_signature "hellp" keysZ sig0 = .ok () := by
  refine ⟨by decide, by with_unfolding_all rfl, ?_,
    validate_zero_group_key keysZ "hello" r0 z0 rfl z0_eq_r0,
    validate_zero_group_key keysZ "hellp" r0 z0 rfl z0_eq_r0⟩
  unfold sign_message
  rw [if_neg (by decide)]
  rw [if_neg (by decide)]
  rw [show List.find? (fun s => decide (keysZ.private_shares.length ≤ s)) [0] = none
    from by decide]
  dsimp only
  rw [show findDup ((signerEntries keysZ [0] nrngA).map (fun en => en.index)) = none
    from by with_unfolding_all rfl]
  dsimp only
  rw [if_neg (by rw [signerEntries_length]; decide)]
  rw [find?_partialOk_none]
  rfl

/-! ## Claim C2 -/

/-- Claim C2: every pair of participants derives the same finalized group
key, so the `assert_eq!` comparing consecutive group keys never fires —
`generate_keys` can never return the assertion-panic outcome — and the
single `group_key` written to the key file equals every participant's
derived key. -/
theorem group_key_agreement (t n : ℕ) (crng : ℕ → ℕ → Scalar) (prng : ℕ → Scalar) :
    (∀ i, i < n → ∀ j, j < n → groupKeyOf t n crng i = groupKeyOf t n crng j) ∧
    (generate_keys t n crng prng ≠ .error .groupKeyAssertPanic) ∧
    (∀ keys, generate_keys t n crng prng = .ok keys →
      ∀ i, i < n → keys.group_key = groupKeyOf t n crng i) := by
  refine ⟨?_, ?_, ?_⟩
  · intro i hi j hj
    rw [groupKeyOf_eq_total t n crng i hi, groupKeyOf_eq_total t n crng j hj]
  · rcases generate_keys_cases t n crng prng with ⟨_, h⟩ | ⟨_, h⟩ | ⟨_, _, h⟩ <;>
      rw [h] <;> simp
  · intro keys hk i hi
    rcases generate_keys_cases t n crng prng with ⟨_, h⟩ | ⟨_, h⟩ | ⟨_, _, h⟩ <;> rw [h] at hk
    · cases hk
    · cases hk
    · injection hk with h2
      rw [← h2, groupKeyOf_eq_total t n crng i hi]

/-- Witness for C2 at `t = 2, n = 3` with concrete randomness. -/
theorem group_key_agreement_witness :
    groupKeyOf 2 3 crngA 0 = groupKeyOf 2 3 crngA 1 ∧
    keysA.group_key = groupKeyOf 2 3 crngA 0 := by
  constructor
  · exact (group_key_agreement 2 3 crngA prngA).1 0 (by decide) 1 (by decide)
  · exact (group_key_agreement 2 3 crngA prngA).2.2 keysA (by with_unfolding_all rfl) 0
      (by decide)

/-! ## Claim C7 -/

/-- Claim C7: the incoming-share list the wrapper assembles for every
participant always has exactly `n - 1` entries, so the share-count-mismatch
abort is unreachable: `generate_keys` never returns it, for any parameters
and randomness. -/
theorem round2_share_count (t n : ℕ) (crng : ℕ → ℕ → Scalar) (prng : ℕ → Scalar) :
    (∀ i, i < n → (mySecretShares t n crng i).length = n - 1) ∧
    (∀ expected got,
      generate_keys t n crng prng ≠ .error (.shareCountMismatch expected got)) := by
  constructor
  · intro i hi
    exact mySecretShares_length t n crng i hi
  · intro expected got
    rcases generate_keys_cases t n crng prng with ⟨_, h⟩ | ⟨_, h⟩ | ⟨_, _, h⟩ <;>
      rw [h] <;> simp

/-- Witness for C7 at `t = 2, n = 3` with concrete randomness. -/
theorem round2_share_count_witness :
    (mySecretShares 2 3 crngA 0).length = 2 ∧
    generate_keys 2 3 crngA prngA ≠ .error (.shareCountMismatch 2 0) := by
  constructor
  · exact (round2_share_count 2 3 crngA prngA).1 0 (by decide)
  · exact (round2_share_count 2 3 crngA prngA).2 2 0

/-! ## Claim C4 -/

/-- Claim C4: the only parameter check in `generate_keys` is `t > n`.  A
call with `t = 0, n = 2` is not rejected with an error: it sails past the
check and the run dies in participant creation (the library indexes the
empty coefficient vector; the wrapper would equally `unwrap` a `None`
public key), modelled as the distinguished panic outcome — while `t = 3,
n = 2` is properly rejected.  No key record is produced either way. -/
theorem generate_keys_zero_threshold_panics :
    generate_keys 0 2 crngA prngA = .error .panic ∧
    generate_keys 3 2 crngA prngA = .error .thresholdExceedsParticipants := by
  constructor
  · decide
  · decide

/-! ## Claim C5 -/

/-- Claim C5 (counterexample): the signer-validity check of `sign_message`
is a 0-based bounds check, not the 1-based participant-index check the
claim states.  For keys generated with `n = 2` the stored participant
indices are `[1, 2]`, yet the signer entry `2` — a valid participant index
present in the key material — is rejected with the invalid-signer error. -/
theorem sign_message_rejects_stored_index :
    generate_keys 1 2 crngA prngA = .ok keysB ∧
    keysB.private_shares.map (fun p => p.2) = [1, 2] ∧
    sign_message "hello" [2] 2 keysB nrngA = .error (.invalidSigner 2) := by
  refine ⟨by with_unfolding_all rfl, by decide, by decide⟩

/-- Claim C5 (amended): `sign_message` (with matching participant count and
enough signers) fails with the invalid-signer error naming `s` exactly when
`s` is the first signer entry that is not below `n`: entries are 0-based
positions into the private-share list, so `0` is accepted and `n` is
rejected even though the stored participant indices are `1..=n`. -/
theorem sign_message_signer_entry_check (message : String) (signers : List ℕ) (n : ℕ)
    (keys : FrostKeys) (nrng : ℕ → Scalar × Scalar)
    (h1 : keys.private_shares.length = n) (h2 : keys.threshold ≤ signers.length) (s : ℕ) :
    sign_message message signers n keys nrng = .error (.invalidSigner s)
      ↔ signers.find? (fun x => n ≤ x) = some s := by
  unfold sign_message
  rw [h1]
  rw [if_neg (by simp), if_neg (not_lt.mpr h2)]
  cases hf : signers.find? (fun x => decide (n ≤ x)) with
  | some x => simp
  | none =>
    simp only [Option.some.injEq]
    constructor
    · intro hcontra
      exfalso
      revert hcontra
      cases hd : findDup ((signerEntries keys signers nrng).map (fun en => en.index)) with
      | some i => simp
      | none =>
        rw [if_neg (by rw [signerEntries_length]; exact not_lt.mpr h2)]
        cases hp : (signerEntries keys signers nrng).find? (fun en =>
            !partialOk (signerEntries keys signers nrng)
              (computeMessageHash signingContext message)
              (comListEncode ((signerEntries keys signers nrng).map
                (fun en => (en.index, en.d, en.e))))
              (challengeHash
                (bigR (signerEntries keys signers nrng)
                  (computeMessageHash signingContext message)
                  (comListEncode ((signerEntries keys signers nrng).map
                    (fun en => (en.index, en.d, en.e)))))
                keys.group_key (computeMessageHash signingContext message))
              en
              (partialZ (signerEntries keys signers nrng)
                (computeMessageHash signingContext message)
                (comListEncode ((signerEntries keys signers nrng).map
                  (fun en => (en.index, en.d, en.e))))
                (challengeHash
                  (bigR (signerEntries keys signers nrng)
                    (computeMessageHash signingContext message)
                    (comListEncode ((signerEntries keys signers nrng).map
                      (fun en => (en.index, en.d, en.e)))))
                  keys.group_key (computeMessageHash signingContext message))
                en)) with
        | some en => simp
        | none => simp
    · intro hcontra
      exact absurd hcontra (by simp)

/-- Witness for the amended C5: entry `2` with `n = 2` is rejected. -/
theorem sign_message_signer_entry_check_witness :
    sign_message "hello" [2] 2 keysB nrngA = .error (.invalidSigner 2) :=
  (sign_message_signer_entry_check "hello" [2] 2 keysB nrngA
    (by decide) (by decide) 2).mpr (by decide)

/-! ## Claim C6 -/

/-- Claim C6: a signer list containing the same index twice never yields a
signature — some error is returned.  The wrapper itself performs no
duplicate check; the rejection happens in the aggregator, modelled from the
spec (§4.4, `include_signer` rejects duplicate indices). -/
theorem sign_message_duplicate_rejected (message : String) (signers : List ℕ) (n : ℕ)
    (keys : FrostKeys) (nrng : ℕ → Scalar × Scalar) (hdup : ¬ signers.Nodup) :
    ∃ e, sign_message message signers n keys nrng = .error e := by
  unfold sign_message
  split
  · exact ⟨_, rfl⟩
  · split
    · exact ⟨_, rfl⟩
    · split
      · exact ⟨_, rfl⟩
      · dsimp only
        split
        · exact ⟨_, rfl⟩
        · next hdnone =>
          exfalso
          apply hdup
          have hnodup := findDup_eq_none_iff.mp hdnone
          rw [signerEntries_map_index] at hnodup
          exact hnodup.of_map _

/-- Witness for C6: signer list `[0, 0]`. -/
theorem sign_message_duplicate_rejected_witness :
    ∃ e, sign_message "hello" [0, 0] 2 keysB nrngA = .error e :=
  sign_message_duplicate_rejected "hello" [0, 0] 2 keysB nrngA (by decide)

end FrostCli

